import Mathlib

/-!
Shallow embedding of the rootmulti multi-store and the cachemulti branch
store of the gal-cosmos repository, together with theorems checking the
specification claims against the code.

Go maps have an unspecified iteration order, so every `map[...]...` the code
ranges over is modelled as an association list given in the iteration order
of one particular run.  Go `int64` values are modelled as `Int` (the code
under consideration never overflows 64 bits on the relevant paths), `uint64`
counters as `Nat`, and byte strings as `List Nat`.
-/

namespace GalCosmos

/-- Byte strings, one natural number per byte. -/
abbrev Bytes := List Nat

/-- types.CommitID: a pair of version and hash. -/
structure CommitID where
  version : Int
  hash : Bytes
deriving DecidableEq, Repr

/-- types.StoreInfo: a store name together with its commit ID. -/
structure StoreInfo where
  name : String
  commitId : CommitID
deriving DecidableEq, Repr

/-- types.CommitInfo: a version plus the list of store infos, kept in exactly
the order the code produced them (the serialized order). -/
structure CommitInfo where
  version : Int
  storeInfos : List StoreInfo
deriving DecidableEq, Repr

/-- types.StoreType, restricted to the variants rootmulti dispatches on. -/
inductive StoreType where
  | iavl
  | db
  | transient
  | memory
  | multi
deriving DecidableEq, Repr

/-- A mounted sub-store, reduced to the interface rootmulti consumes at
commit time: its store type, the commit ID its Commit(bumpVersion) call
returns, and the commit ID its LastCommitID() call returns. -/
structure SubStore where
  storeType : StoreType
  commit : Bool → CommitID
  lastCommitID : CommitID

/-- The Go map rs.stores in the iteration order of one particular run. -/
abbrev StoreMap := List (String × SubStore)

/-- Insertion step for sorting by a name projection. -/
def insertSortedBy {α : Type} (f : α → String) (a : α) : List α → List α
  | [] => [a]
  | b :: l => if f a ≤ f b then a :: b :: l else b :: insertSortedBy f a l

/-- Sorting ascending by a name projection.  keysForStoreKeyMap and the
sort.Slice calls in the source are modelled with this sort; on inputs with
pairwise distinct names every comparison sort produces this same result. -/
def sortBy {α : Type} (f : α → String) : List α → List α
  | [] => []
  | a :: l => insertSortedBy f a (sortBy f l)

theorem insertSortedBy_perm {α : Type} (f : α → String) (a : α) (l : List α) :
    List.Perm (insertSortedBy f a l) (a :: l) := by
  induction l with
  | nil => simp [insertSortedBy]
  | cons b t ih =>
    simp only [insertSortedBy]
    by_cases h : f a ≤ f b
    · simp [h]
    · simp only [if_neg h]
      exact (ih.cons b).trans (List.Perm.swap a b t)

theorem sortBy_perm {α : Type} (f : α → String) (l : List α) : List.Perm (sortBy f l) l := by
  induction l with
  | nil => simp [sortBy]
  | cons a t ih =>
    exact (insertSortedBy_perm f a (sortBy f t)).trans (ih.cons a)

theorem mem_insertSortedBy {α : Type} {f : α → String} {a x : α} {l : List α} :
    x ∈ insertSortedBy f a l ↔ x = a ∨ x ∈ l := by
  rw [(insertSortedBy_perm f a l).mem_iff]
  simp

theorem pairwise_insertSortedBy {α : Type} (f : α → String) (a : α) (l : List α)
    (hl : l.Pairwise (fun x y => f x ≤ f y)) :
    (insertSortedBy f a l).Pairwise (fun x y => f x ≤ f y) := by
  induction l with
  | nil => simp [insertSortedBy]
  | cons b t ih =>
    simp only [insertSortedBy]
    rcases List.pairwise_cons.mp hl with ⟨hb, ht⟩
    by_cases h : f a ≤ f b
    · rw [if_pos h]
      refine List.pairwise_cons.mpr ⟨?_, hl⟩
      intro y hy
      rcases List.mem_cons.mp hy with rfl | hy
      · exact h
      · exact le_trans h (hb y hy)
    · rw [if_neg h]
      refine List.pairwise_cons.mpr ⟨?_, ih ht⟩
      intro y hy
      rcases mem_insertSortedBy.mp hy with rfl | hy
      · exact le_of_not_le h
      · exact hb y hy

theorem pairwise_sortBy {α : Type} (f : α → String) (l : List α) :
    (sortBy f l).Pairwise (fun x y => f x ≤ f y) := by
  induction l with
  | nil => simp [sortBy]
  | cons a t ih => exact pairwise_insertSortedBy f a (sortBy f t) ih

theorem eq_of_perm_of_pairwiseBy {α : Type} (f : α → String) :
    ∀ (l₁ l₂ : List α), List.Perm l₁ l₂ → l₁.Pairwise (fun x y => f x ≤ f y) →
      l₂.Pairwise (fun x y => f x ≤ f y) → (l₁.map f).Nodup → l₁ = l₂ := by
  intro l₁
  induction l₁ with
  | nil =>
    intro l₂ hp _ _ _
    exact (List.Perm.nil_eq hp).symm ▸ rfl
  | cons a t₁ ih =>
    intro l₂ hp h₁ h₂ hn
    have hn' : (∀ x ∈ t₁, ¬ f x = f a) ∧ (t₁.map f).Nodup := by simpa using hn
    cases l₂ with
    | nil => exact absurd hp.symm (by simp)
    | cons b t₂ =>
      rcases List.pairwise_cons.mp h₁ with ⟨ha, ht₁⟩
      rcases List.pairwise_cons.mp h₂ with ⟨hb, ht₂⟩
      have hab : a = b := by
        have hamem : a ∈ b :: t₂ := hp.mem_iff.mp (List.mem_cons_self a t₁)
        rcases List.mem_cons.mp hamem with rfl | hat₂
        · rfl
        · have hbmem : b ∈ a :: t₁ := hp.symm.mem_iff.mp (List.mem_cons_self b t₂)
          rcases List.mem_cons.mp hbmem with rfl | hbt₁
          · rfl
          · have h₁' : f a ≤ f b := ha b hbt₁
            have h₂' : f b ≤ f a := hb a hat₂
            have hfeq : f b = f a := le_antisymm h₂' h₁'
            exact absurd hfeq (hn'.1 b hbt₁)
      subst hab
      have htp : List.Perm t₁ t₂ := hp.cons_inv
      have : t₁ = t₂ := ih t₂ htp ht₁ ht₂ hn'.2
      rw [this]

theorem sortBy_eq_of_perm {α : Type} (f : α → String) (l₁ l₂ : List α)
    (hp : List.Perm l₁ l₂) (hn : (l₁.map f).Nodup) : sortBy f l₁ = sortBy f l₂ := by
  have hperm : List.Perm (sortBy f l₁) (sortBy f l₂) :=
    (sortBy_perm f l₁).trans (hp.trans (sortBy_perm f l₂).symm)
  have hn₁ : ((sortBy f l₁).map f).Nodup := by
    have : List.Perm ((sortBy f l₁).map f) (l₁.map f) := (sortBy_perm f l₁).map f
    exact this.nodup_iff.mpr hn
  exact eq_of_perm_of_pairwiseBy f (sortBy f l₁) (sortBy f l₂) hperm
    (pairwise_sortBy f l₁) (pairwise_sortBy f l₂) hn₁

/-- The loop body of commitStores: every store in iteration order gets its
Commit(bumpVersion) invoked; a StoreInfo is collected for every store whose
type is not transient.  The second component records, in order, the names of
the stores on which Commit was invoked (all of them). -/
def commitStoresTrace : StoreMap → Bool → List StoreInfo × List String
  | [], _ => ([], [])
  | (name, store) :: rest, bumpVersion =>
    let commitID := store.commit bumpVersion
    let r := commitStoresTrace rest bumpVersion
    if store.storeType = StoreType.transient then
      (r.1, name :: r.2)
    else
      ({ name := name, commitId := commitID } :: r.1, name :: r.2)

/-- commitStores: commits each store and returns a new CommitInfo, the
StoreInfos appearing in the iteration order of the store map. -/
def commitStores (version : Int) (storeMap : StoreMap) (bumpVersion : Bool) : CommitInfo :=
  { version := version, storeInfos := (commitStoresTrace storeMap bumpVersion).1 }

/-- The loop body of buildCommitInfo over an already ordered key list:
transient stores are skipped, every other store contributes its
LastCommitID. -/
def buildStoreInfos : StoreMap → List StoreInfo
  | [] => []
  | (name, store) :: rest =>
    if store.storeType = StoreType.transient then buildStoreInfos rest
    else { name := name, commitId := store.lastCommitID } :: buildStoreInfos rest

/-- buildCommitInfo: iterates the mounted stores in lexical name order
(keysForStoreKeyMap sorts the keys by Name()), skipping transient stores. -/
def buildCommitInfo (version : Int) (stores : StoreMap) : CommitInfo :=
  { version := version, storeInfos := buildStoreInfos (sortBy Prod.fst stores) }

/-- The version-selection prelude of Store.Commit.  Returns the pair
(previousHeight, version).  previousHeight is the Go local variable of the
same name: it stays 0 unless the bumpVersion branch is taken.  lastVersion
is rs.LastCommitInfo().GetVersion() (0 when no commit info exists). -/
def selectCommitVersion (lastVersion initialVersion : Int) (bumpVersion : Bool) :
    Int × Int :=
  if lastVersion = 0 ∧ 1 < initialVersion then (0, initialVersion)
  else if bumpVersion then (lastVersion, lastVersion + 1)
  else (0, lastVersion)

/-- types.PruningOptions; the three fields are uint64 in the source. -/
structure PruningOptions where
  keepRecent : Nat
  keepEvery : Nat
  interval : Nat
deriving DecidableEq, Repr

/-- The pruning-height scheduling step of Store.Commit.  Go int64 % is the
truncated remainder, Int.tmod. -/
def schedulePruneHeight (opts : PruningOptions) (previousHeight : Int)
    (pruneHeights : List Int) : List Int :=
  if 0 < opts.interval ∧ (opts.keepRecent : Int) < previousHeight then
    let pruneHeight := previousHeight - (opts.keepRecent : Int)
    if opts.keepEvery = 0 ∨ Int.tmod pruneHeight (opts.keepEvery : Int) ≠ 0 then
      pruneHeights ++ [pruneHeight]
    else pruneHeights
  else pruneHeights

/-- Outcome of an iavl.Store DeleteVersions call, as PruneStores consumes
it: success, the swallowed iavltree.ErrVersionDoesNotExist, or any other
error (which is fatal). -/
inductive DeleteVersionsResult where
  | ok
  | versionDoesNotExist
  | otherError
deriving DecidableEq, Repr

/-- A mounted sub-store as PruneStores consumes it: its store type and the
outcome its DeleteVersions call would produce. -/
structure PruneSubStore where
  storeType : StoreType
  deleteResult : DeleteVersionsResult
deriving DecidableEq, Repr

/-- The DeleteVersions loop of PruneStores: walks the stores in iteration
order, invokes DeleteVersions on every iavl store, swallows
ErrVersionDoesNotExist, and panics (modelled as an error result) on any
other error.  On success it returns the names of the stores on which
DeleteVersions was invoked, in order. -/
def deleteVersionsOnStores : List (String × PruneSubStore) → Except String (List String)
  | [] => Except.ok []
  | (name, s) :: rest =>
    if s.storeType = StoreType.iavl then
      match s.deleteResult with
      | DeleteVersionsResult.otherError => Except.error "panic: DeleteVersions failed"
      | _ => (deleteVersionsOnStores rest).map (fun l => name :: l)
    else deleteVersionsOnStores rest

/-- The fields of the root Store that PruneStores reads and writes. -/
structure PruneState where
  stores : List (String × PruneSubStore)
  pruneHeights : List Int
  earliestVersion : Int
deriving DecidableEq, Repr

/-- Observable outcome of a PruneStores call: the stores DeleteVersions was
invoked on, the heights list it was passed, and the updated state. -/
structure PruneOutcome where
  calledStores : List String
  heightsUsed : List Int
  state : PruneState
deriving DecidableEq, Repr

/-- Store.PruneStores.  When clearStorePruningHeights is set the internal
pending list is appended to the caller-supplied list.  The guard on the
length of the internal rs.pruneHeights comes before any deletion: an empty
internal list returns immediately.  After deleting, earliestVersion is set
to the last element of the combined list when that list is nonempty, and
the internal pending list is cleared when clearStorePruningHeights is
set. -/
def pruneStores (clearStorePruningHeights : Bool) (pruningHeights : List Int)
    (st : PruneState) : Except String PruneOutcome :=
  let combined :=
    if clearStorePruningHeights then pruningHeights ++ st.pruneHeights
    else pruningHeights
  if st.pruneHeights.length = 0 then
    Except.ok { calledStores := [], heightsUsed := [], state := st }
  else
    (deleteVersionsOnStores st.stores).map (fun called =>
      { calledStores := called
        heightsUsed := combined
        state :=
          { stores := st.stores
            earliestVersion :=
              match combined.getLast? with
              | some h => h
              | none => st.earliestVersion
            pruneHeights :=
              if clearStorePruningHeights then [] else st.pruneHeights } })

/-- Errors a query can produce, as sdkerrors wraps them. -/
inductive QueryError where
  | unknownRequest (msg : String)
  | invalidRequest (msg : String)
  | commitInfoNotFound (msg : String)
deriving DecidableEq, Repr

/-- A proof operation in a response.  Sub-store ops are opaque; the
multi-store aggregation op commitInfo.ProofOp(storeName) is kept symbolic so
that the commit info it was built from is observable. -/
inductive ProofOp where
  | sub (data : Bytes)
  | multi (storeName : String) (ci : CommitInfo)
deriving DecidableEq, Repr

/-- The part of abci.ResponseQuery that the proof-aggregation tail of
Store.Query reads and writes. -/
structure SubQueryRes where
  height : Int
  value : Bytes
  proofOps : Option (List ProofOp)
deriving DecidableEq, Repr

/-- The tail of Store.Query from the point where the sub-store query has
returned res: if req.Prove and the subpath requires a proof, an empty
ProofOps fails; otherwise the commit info is the cached lastCommitInfo when
res.Height equals its version, else it is loaded from s/res.Height on disk
(the disk argument; None models a missing or corrupt record), and the
aggregation ProofOp for the store name is appended. -/
def queryProveTail (firstPath : String) (prove requireProof : Bool)
    (res : SubQueryRes) (lastCI : CommitInfo) (disk : Int → Option CommitInfo) :
    Except QueryError SubQueryRes :=
  if ¬ (prove ∧ requireProof) then Except.ok res
  else
    match res.proofOps with
    | none =>
      Except.error (QueryError.invalidRequest
        "proof is unexpectedly empty; ensure height has not been pruned")
    | some ops =>
      if ops.length = 0 then
        Except.error (QueryError.invalidRequest
          "proof is unexpectedly empty; ensure height has not been pruned")
      else
        (if res.height = lastCI.version then Except.ok lastCI
         else
           match disk res.height with
           | some ci => Except.ok ci
           | none => Except.error (QueryError.commitInfoNotFound "no commit info found")).map
          (fun ci => { res with proofOps := some (ops ++ [ProofOp.multi firstPath ci]) })

/-- iavltree.ExportNode as written into a SnapshotIAVLItem. -/
structure SnapExportNode where
  key : Bytes
  value : Bytes
  height : Int
  version : Int
deriving DecidableEq, Repr

/-- A sub-store as Store.Snapshot consumes it after unwrapping the
inter-block cache: an iavl store carries the node stream its exporter
yields at the snapshot height; transient and memory stores are skipped;
anything else is fatal. -/
inductive SnapStoreData where
  | iavlStore (nodes : List SnapExportNode)
  | transientStore
  | memStore
  | otherStore
deriving DecidableEq, Repr

/-- One record of the emitted snapshot stream: a SnapshotStoreItem or a
SnapshotIAVLItem. -/
inductive SnapshotRecord where
  | storeItem (name : String)
  | nodeItem (n : SnapExportNode)
deriving DecidableEq, Repr

/-- The collection loop of Store.Snapshot, in map iteration order: iavl
stores are collected with their export streams, transient and memory stores
are skipped, any other type aborts with the fatal logic error. -/
def collectSnapshotStores :
    List (String × SnapStoreData) → Except String (List (String × List SnapExportNode))
  | [] => Except.ok []
  | (name, SnapStoreData.iavlStore nodes) :: rest =>
    (collectSnapshotStores rest).map (fun l => (name, nodes) :: l)
  | (_, SnapStoreData.transientStore) :: rest => collectSnapshotStores rest
  | (_, SnapStoreData.memStore) :: rest => collectSnapshotStores rest
  | (name, SnapStoreData.otherStore) :: _ =>
    Except.error ("dont know how to snapshot store " ++ name)

/-- Emission of one collected store: a SnapshotStoreItem with its name
followed by one SnapshotIAVLItem per exported node. -/
def emitStore (p : String × List SnapExportNode) : List SnapshotRecord :=
  SnapshotRecord.storeItem p.1 :: p.2.map SnapshotRecord.nodeItem

/-- Store.Snapshot: the bound checks on height, then collection, lexical
sort by store name (sort.Slice with strings.Compare), and ordered
emission.  latestVersion is rs.LastCommitID().Version; the source compares
height > uint64(version), which agrees with the Int comparison here for
the non-negative versions the store produces. -/
def snapshotRecords (height : Nat) (latestVersion : Int)
    (stores : List (String × SnapStoreData)) : Except String (List SnapshotRecord) :=
  if height = 0 then Except.error "cannot snapshot height 0"
  else if latestVersion < (height : Int) then Except.error "cannot snapshot future height"
  else
    (collectSnapshotStores stores).map
      (fun l => (sortBy Prod.fst l).flatMap emitStore)

/-- The names of the SnapshotStoreItem records of a stream, in order. -/
def snapshotStoreNames (s : List SnapshotRecord) : List String :=
  s.filterMap (fun r =>
    match r with
    | SnapshotRecord.storeItem n => some n
    | SnapshotRecord.nodeItem _ => none)

/-- The iavl entries of a store map in iteration order, with their export
streams; this is what a successful collection returns. -/
def iavlStoresOf (stores : List (String × SnapStoreData)) :
    List (String × List SnapExportNode) :=
  stores.filterMap (fun p =>
    match p with
    | (name, SnapStoreData.iavlStore nodes) => some (name, nodes)
    | _ => none)

/-- Go conversion int8(x) of an int32 value x: wrap into the range
[-128, 127] (two's complement truncation). -/
def toInt8 (x : Int) : Int := (x + 128) % 256 - 128

/-- The wire fields of a SnapshotIAVLItem.  Key and value are protobuf
bytes, for which the wire format cannot distinguish absent (none) from
empty; height is the int32 wire field. -/
structure IAVLItem where
  key : Option Bytes
  value : Option Bytes
  height : Int
  version : Int
deriving DecidableEq, Repr

/-- One record of the incoming restore stream: a SnapshotStoreItem, a
SnapshotIAVLItem, or any other item (which terminates the loop and is
handed back to the caller). -/
inductive RestoreItem where
  | storeItem (name : String)
  | iavlItem (n : IAVLItem)
  | otherItem
deriving DecidableEq, Repr

/-- A node as it is handed to importer.Add after the normalization in
Store.Restore: the key is never nil any more, the value may still be nil
for inner nodes, the height has been narrowed to int8. -/
structure ImportNode where
  key : Bytes
  value : Option Bytes
  height : Int
  version : Int
deriving DecidableEq, Repr

/-- The normalization Store.Restore applies before importer.Add: a nil key
becomes empty bytes, and for a leaf (narrowed height 0) a nil value becomes
empty bytes. -/
def normalizeImportNode (item : IAVLItem) : ImportNode :=
  { key :=
      match item.key with
      | none => []
      | some k => k
    value :=
      if toInt8 item.height = 0 ∧ item.value = none then some []
      else item.value
    height := toInt8 item.height
    version := item.version }

/-- An open importer: the store it imports into and the nodes added so
far, in order. -/
structure RestoreImporter where
  name : String
  nodes : List ImportNode
deriving DecidableEq, Repr

/-- The final outcome of Restore: the committed importers, in completion
order, and the item that terminated the loop (none at EOF). -/
structure RestoreOutcome where
  committed : List RestoreImporter
  next : Option RestoreItem
deriving DecidableEq, Repr

/-- The record loop of Store.Restore.  isIAVLStore tells whether
GetStoreByName yields an iavl store for a name.  A store item commits the
open importer and opens the next; an iavl item requires an open importer,
rejects heights above math.MaxInt8, normalizes, and adds the node; any
other item stops the loop; at EOF or on stop the open importer is
committed. -/
def restoreLoop (isIAVLStore : String → Bool) :
    List RestoreItem → Option RestoreImporter → List RestoreImporter →
    Except String RestoreOutcome
  | [], imp, done =>
    Except.ok { committed := done ++ imp.toList, next := none }
  | RestoreItem.storeItem name :: rest, imp, done =>
    if isIAVLStore name then
      restoreLoop isIAVLStore rest (some { name := name, nodes := [] }) (done ++ imp.toList)
    else Except.error ("cannot import into non-IAVL store " ++ name)
  | RestoreItem.iavlItem item :: rest, imp, done =>
    match imp with
    | none => Except.error "received IAVL node item before store item"
    | some im =>
      if 127 < item.height then
        Except.error "node height cannot exceed 127"
      else
        restoreLoop isIAVLStore rest
          (some { im with nodes := im.nodes ++ [normalizeImportNode item] }) done
  | RestoreItem.otherItem :: _, imp, done =>
    Except.ok { committed := done ++ imp.toList, next := some RestoreItem.otherItem }

/-- Store.Restore: runs the loop with no open importer. -/
def restore (isIAVLStore : String → Bool) (items : List RestoreItem) :
    Except String RestoreOutcome :=
  restoreLoop isIAVLStore items none []

/-- The committed contents of one key-value sub-store, as a read view. -/
abbrev KV := Bytes → Option Bytes

/-- Modelled from the spec: the cache-branch sub-store (package cachekv) is
a collaborator whose source is not given; spec section 4.6 states that each
sub-store is wrapped in a write-through cache whose writes merge into the
parent only on explicit Write, and that discarding simply drops the
branch.  The branch holds the parent read view plus an ordered buffer of
writes (a set stores some value, a delete stores none). -/
structure CacheKV where
  parent : KV
  writes : List (Bytes × Option Bytes)

/-- The buffered write that is in force for a key: the last buffer entry
for that key, if any. -/
def bufferedWrite (writes : List (Bytes × Option Bytes)) (k : Bytes) :
    Option (Option Bytes) :=
  (writes.filter (fun p => decide (p.1 = k))).getLast?.map Prod.snd

/-- Modelled from the spec: reading through the branch sees the buffered
write when one exists, else the parent. -/
def CacheKV.get (c : CacheKV) (k : Bytes) : Option Bytes :=
  match bufferedWrite c.writes k with
  | some v => v
  | none => c.parent k

/-- Modelled from the spec: a branch write is only buffered. -/
def CacheKV.set (c : CacheKV) (k v : Bytes) : CacheKV :=
  { c with writes := c.writes ++ [(k, some v)] }

/-- Modelled from the spec: a branch delete is only buffered. -/
def CacheKV.del (c : CacheKV) (k : Bytes) : CacheKV :=
  { c with writes := c.writes ++ [(k, none)] }

/-- Modelled from the spec: cachekv Write applies every buffered write to
the parent, producing its new read view. -/
def CacheKV.write (c : CacheKV) : KV :=
  fun k =>
    match bufferedWrite c.writes k with
    | some v => v
    | none => c.parent k

/-- The parent multi-store contents: one read view per mounted name. -/
abbrev ParentStores := List (String × KV)

/-- A cache-multi-store branch: one cache branch per mounted name. -/
structure CacheMultiBranch where
  stores : List (String × CacheKV)

/-- Store.CacheMultiStore: shallow-copies the sub-store map and wraps every
sub-store in a fresh cache branch (cachemulti.NewFromKVStore wraps each
entry with cachekv.NewStore over it). -/
def cacheMultiStore (parent : ParentStores) : CacheMultiBranch :=
  { stores := parent.map (fun p => (p.1, { parent := p.2, writes := [] })) }

/-- A write issued through a branch sub-store obtained with GetKVStore. -/
inductive BranchOp where
  | set (storeName : String) (k v : Bytes)
  | del (storeName : String) (k : Bytes)
deriving DecidableEq, Repr

/-- Apply one branch write to the branch (the parent is untouched). -/
def applyBranchOp (b : CacheMultiBranch) : BranchOp → CacheMultiBranch
  | BranchOp.set n k v =>
    { stores := b.stores.map (fun p => if p.1 = n then (p.1, p.2.set k v) else p) }
  | BranchOp.del n k =>
    { stores := b.stores.map (fun p => if p.1 = n then (p.1, p.2.del k) else p) }

/-- The joint state of the parent multi-store and one branch over it. -/
structure BranchSystem where
  parent : ParentStores
  branch : CacheMultiBranch

/-- Branch creation followed by a sequence of branch writes: only the
branch component evolves. -/
def runBranchOps (parent : ParentStores) (ops : List BranchOp) : BranchSystem :=
  { parent := parent, branch := ops.foldl applyBranchOp (cacheMultiStore parent) }

/-- cachemulti Store.Write: calls Write on each cached sub-store, merging
its buffer into the parent; the result is the new parent contents. -/
def writeBranch (s : BranchSystem) : ParentStores :=
  s.branch.stores.map (fun p => (p.1, p.2.write))

/-- Reading a key of a named sub-store of the parent multi-store. -/
def parentGet (ps : ParentStores) (name : String) (k : Bytes) : Option Bytes :=
  match ps.find? (fun p => decide (p.1 = name)) with
  | some p => p.2 k
  | none => none

/-- The buffer entries a sequence of branch writes contributes to the
sub-store of a given name, in order. -/
def opsBuffer (ops : List BranchOp) (name : String) : List (Bytes × Option Bytes) :=
  ops.filterMap (fun op =>
    match op with
    | BranchOp.set n k v => if n = name then some (k, some v) else none
    | BranchOp.del n k => if n = name then some (k, none) else none)

theorem commitStoresTrace_fst (storeMap : StoreMap) (bump : Bool) :
    (commitStoresTrace storeMap bump).1 =
      (storeMap.filter (fun p => decide (¬ p.2.storeType = StoreType.transient))).map
        (fun p => { name := p.1, commitId := p.2.commit bump }) := by
  induction storeMap with
  | nil => rfl
  | cons p rest ih =>
    obtain ⟨name, store⟩ := p
    simp only [commitStoresTrace, List.filter]
    by_cases h : store.storeType = StoreType.transient
    · simp [h, ih]
    · simp [h, ih]

theorem commitStoresTrace_snd (storeMap : StoreMap) (bump : Bool) :
    (commitStoresTrace storeMap bump).2 = storeMap.map Prod.fst := by
  induction storeMap with
  | nil => rfl
  | cons p rest ih =>
    obtain ⟨name, store⟩ := p
    simp only [commitStoresTrace]
    by_cases h : store.storeType = StoreType.transient
    · simp [h, ih]
    · simp [h, ih]

theorem buildStoreInfos_eq (l : StoreMap) :
    buildStoreInfos l =
      (l.filter (fun p => decide (¬ p.2.storeType = StoreType.transient))).map
        (fun p => { name := p.1, commitId := p.2.lastCommitID }) := by
  induction l with
  | nil => rfl
  | cons p rest ih =>
    obtain ⟨name, store⟩ := p
    simp only [buildStoreInfos, List.filter]
    by_cases h : store.storeType = StoreType.transient
    · simp [h, ih]
    · simp [h, ih]

/-- A concrete iavl sub-store used in counterexamples. -/
def iavlSubEx : SubStore :=
  { storeType := StoreType.iavl
    commit := fun _ => { version := 1, hash := [] }
    lastCommitID := { version := 1, hash := [] } }

/-- A concrete memory sub-store used in counterexamples. -/
def memSubEx : SubStore :=
  { storeType := StoreType.memory
    commit := fun _ => { version := 0, hash := [7] }
    lastCommitID := { version := 0, hash := [7] } }

/-- C1 counterexample: the CommitInfo produced (and then flushed) by
commitStores keeps the Go map iteration order; when the map iterates the
store named b before the store named a, the serialized StoreInfos list is
["b", "a"], which is not in lexical ascending name order. -/
theorem commitStores_unsorted_counterexample :
    ((commitStores 1 [("b", iavlSubEx), ("a", iavlSubEx)] true).storeInfos.map
        StoreInfo.name) = ["b", "a"]
      ∧ ¬ (("b" : String) ≤ "a") := by
  refine ⟨rfl, ?_⟩
  rw [String.le_iff_toList_le]
  decide

/-- C1 amended: buildCommitInfo lists its StoreInfos in lexical ascending
name order, while commitStores lists them in the iteration order of the
store map (filtered of transient stores) and performs no sorting. -/
theorem storeInfos_order_amended (v : Int) (stores storeMap : StoreMap) (bump : Bool) :
    ((buildCommitInfo v stores).storeInfos.map StoreInfo.name).Pairwise (fun a b => a ≤ b)
  ∧ (commitStores v storeMap bump).storeInfos.map StoreInfo.name =
      (storeMap.filter (fun p => decide (¬ p.2.storeType = StoreType.transient))).map
        Prod.fst := by
  constructor
  · have hsorted := pairwise_sortBy Prod.fst stores
    have hfil :
        ((sortBy Prod.fst stores).filter
            (fun p => decide (¬ p.2.storeType = StoreType.transient))).Pairwise
          (fun x y => x.1 ≤ y.1) :=
      hsorted.sublist (List.filter_sublist _)
    have : (buildCommitInfo v stores).storeInfos.map StoreInfo.name =
        ((sortBy Prod.fst stores).filter
            (fun p => decide (¬ p.2.storeType = StoreType.transient))).map Prod.fst := by
      simp [buildCommitInfo, buildStoreInfos_eq, List.map_map]
    rw [this, List.pairwise_map]
    exact hfil
  · simp [commitStores, commitStoresTrace_fst, List.map_map]

/-- C2 counterexample: a sub-store of memory type does contribute a
StoreInfo entry, both in commitStores and in buildCommitInfo (only
transient stores are skipped by the code). -/
theorem memory_store_contributes_counterexample :
    (commitStores 1 [("m", memSubEx)] true).storeInfos =
        [{ name := "m", commitId := { version := 0, hash := [7] } }]
  ∧ (buildCommitInfo 1 [("m", memSubEx)]).storeInfos =
        [{ name := "m", commitId := { version := 0, hash := [7] } }] :=
  ⟨rfl, rfl⟩

/-- C2 amended: every mounted sub-store, transient and memory included, has
Commit invoked on it by commitStores, but only sub-stores of transient type
are omitted from the resulting CommitInfo; memory sub-stores (and every
other non-transient type) do contribute a StoreInfo entry, in commitStores
as well as in buildCommitInfo. -/
theorem commit_transient_memory_amended (v : Int) (storeMap : StoreMap) (bump : Bool) :
    (commitStoresTrace storeMap bump).2 = storeMap.map Prod.fst
  ∧ (commitStores v storeMap bump).storeInfos =
      (storeMap.filter (fun p => decide (¬ p.2.storeType = StoreType.transient))).map
        (fun p => { name := p.1, commitId := p.2.commit bump })
  ∧ (buildCommitInfo v storeMap).storeInfos =
      ((sortBy Prod.fst storeMap).filter
          (fun p => decide (¬ p.2.storeType = StoreType.transient))).map
        (fun p => { name := p.1, commitId := p.2.lastCommitID }) :=
  ⟨commitStoresTrace_snd storeMap bump, commitStoresTrace_fst storeMap bump,
    buildStoreInfos_eq (sortBy Prod.fst storeMap)⟩

/-- C3: Store.Commit selects the committed version as follows: when no
prior commit exists (last commit info version 0) and initialVersion > 1 the
version is initialVersion; otherwise bumpVersion = true gives
lastVersion + 1 and bumpVersion = false gives lastVersion.  In particular a
first version-bumping commit with initialVersion 0 yields version 1, and a
first commit with initialVersion N > 1 yields N (for any bumpVersion, since
that branch is checked first). -/
theorem commit_version_selection (lastVersion initialVersion N : Int)
    (bumpVersion : Bool) (hN : 1 < N) :
    (lastVersion = 0 → 1 < initialVersion →
      (selectCommitVersion lastVersion initialVersion bumpVersion).2 = initialVersion)
  ∧ (¬ (lastVersion = 0 ∧ 1 < initialVersion) →
      (selectCommitVersion lastVersion initialVersion true).2 = lastVersion + 1)
  ∧ (¬ (lastVersion = 0 ∧ 1 < initialVersion) →
      (selectCommitVersion lastVersion initialVersion false).2 = lastVersion)
  ∧ (selectCommitVersion 0 0 true).2 = 1
  ∧ (selectCommitVersion 0 N bumpVersion).2 = N := by
  refine ⟨?_, ?_, ?_, ?_, ?_⟩
  · intro h1 h2
    simp [selectCommitVersion, h1, h2]
  · intro h
    simp [selectCommitVersion, h]
  · intro h
    simp [selectCommitVersion, h]
  · rfl
  · simp [selectCommitVersion, hN]

/-- C3 witness: the version selection evaluated at concrete inputs. -/
theorem commit_version_selection_witness :
    (¬ ((5 : Int) = 0 ∧ (1 : Int) < 0) →
      (selectCommitVersion 5 0 true).2 = 5 + 1)
  ∧ (selectCommitVersion 0 0 true).2 = 1
  ∧ (selectCommitVersion 0 7 false).2 = 7 :=
  ⟨(commit_version_selection 5 0 7 true (by decide)).2.1,
    (commit_version_selection 0 0 7 true (by decide)).2.2.2.1,
    (commit_version_selection 0 0 7 false (by decide)).2.2.2.2⟩

/-- C4: with pruning Interval > 0, the scheduling step of Store.Commit
appends exactly one height, pruneHeight = previousHeight - KeepRecent, and
does so precisely when KeepRecent < previousHeight and the height is not a
retained snapshot height; with KeepEvery = 0 it always appends once
KeepRecent < previousHeight, and with KeepEvery different from 0 the height
is skipped precisely when pruneHeight mod KeepEvery is 0. -/
theorem prune_height_scheduling (opts : PruningOptions) (previousHeight : Int)
    (l : List Int) (hI : 0 < opts.interval) :
    ((∃ h, schedulePruneHeight opts previousHeight l = l ++ [h]) ↔
      ((opts.keepRecent : Int) < previousHeight ∧
        (opts.keepEvery = 0 ∨
          Int.tmod (previousHeight - (opts.keepRecent : Int)) (opts.keepEvery : Int) ≠ 0)))
  ∧ (∀ h, schedulePruneHeight opts previousHeight l = l ++ [h] →
      h = previousHeight - (opts.keepRecent : Int))
  ∧ (¬ ((opts.keepRecent : Int) < previousHeight ∧
        (opts.keepEvery = 0 ∨
          Int.tmod (previousHeight - (opts.keepRecent : Int)) (opts.keepEvery : Int) ≠ 0)) →
      schedulePruneHeight opts previousHeight l = l) := by
  have hne : ∀ h : Int, l ≠ l ++ [h] := by
    intro h hcontra
    have := congrArg List.length hcontra
    simp at this
  constructor
  · constructor
    · rintro ⟨h, hh⟩
      by_cases hr : (opts.keepRecent : Int) < previousHeight
      · refine ⟨hr, ?_⟩
        by_cases hk : opts.keepEvery = 0 ∨
            Int.tmod (previousHeight - (opts.keepRecent : Int)) (opts.keepEvery : Int) ≠ 0
        · exact hk
        · rw [schedulePruneHeight, if_pos ⟨hI, hr⟩] at hh
          simp only [if_neg hk] at hh
          exact absurd hh (hne h)
      · rw [schedulePruneHeight, if_neg (fun hc => hr hc.2)] at hh
        exact absurd hh (hne h)
    · rintro ⟨hr, hk⟩
      refine ⟨previousHeight - (opts.keepRecent : Int), ?_⟩
      rw [schedulePruneHeight, if_pos ⟨hI, hr⟩]
      simp only [if_pos hk]
  · constructor
    · intro h hh
      by_cases hr : (opts.keepRecent : Int) < previousHeight
      · by_cases hk : opts.keepEvery = 0 ∨
            Int.tmod (previousHeight - (opts.keepRecent : Int)) (opts.keepEvery : Int) ≠ 0
        · rw [schedulePruneHeight, if_pos ⟨hI, hr⟩] at hh
          simp only [if_pos hk] at hh
          have hinj := List.append_cancel_left hh
          simpa using hinj.symm
        · rw [schedulePruneHeight, if_pos ⟨hI, hr⟩] at hh
          simp only [if_neg hk] at hh
          exact absurd hh (hne h)
      · rw [schedulePruneHeight, if_neg (fun hc => hr hc.2)] at hh
        exact absurd hh (hne h)
    · intro hcond
      rw [schedulePruneHeight]
      by_cases hr : (opts.keepRecent : Int) < previousHeight
      · rw [if_pos ⟨hI, hr⟩]
        have hk : ¬ (opts.keepEvery = 0 ∨
            Int.tmod (previousHeight - (opts.keepRecent : Int)) (opts.keepEvery : Int) ≠ 0) :=
          fun hk => hcond ⟨hr, hk⟩
        simp only [if_neg hk]
      · rw [if_neg (fun hc => hr hc.2)]

/-- C4 witness: with Interval 10, KeepRecent 2, KeepEvery 3 and previous
height 8, the scheduled height is 6, which 3 divides, so it is skipped. -/
theorem prune_height_scheduling_witness :
    schedulePruneHeight { keepRecent := 2, keepEvery := 3, interval := 10 } 8 [4] = [4]
  ∧ schedulePruneHeight { keepRecent := 2, keepEvery := 0, interval := 10 } 8 [4] = [4, 6] := by
  constructor
  · exact (prune_height_scheduling
      { keepRecent := 2, keepEvery := 3, interval := 10 } 8 [4] (by decide)).2.2
      (by decide)
  · have h := (prune_height_scheduling
      { keepRecent := 2, keepEvery := 0, interval := 10 } 8 [4] (by decide)).1.mpr
      (by decide)
    obtain ⟨h6, hh⟩ := h
    have := (prune_height_scheduling
      { keepRecent := 2, keepEvery := 0, interval := 10 } 8 [4] (by decide)).2.1 h6 hh
    rw [hh, this]
    rfl

theorem deleteVersionsOnStores_error_iff (l : List (String × PruneSubStore)) :
    (∃ e, deleteVersionsOnStores l = Except.error e) ↔
      ∃ p ∈ l, p.2.storeType = StoreType.iavl ∧
        p.2.deleteResult = DeleteVersionsResult.otherError := by
  induction l with
  | nil => simp [deleteVersionsOnStores]
  | cons p rest ih =>
    obtain ⟨name, s⟩ := p
    simp only [deleteVersionsOnStores]
    by_cases hi : s.storeType = StoreType.iavl
    · rw [if_pos hi]
      cases hr : s.deleteResult with
      | otherError => simp [hi, hr]
      | ok =>
        simp only [hi, hr]
        cases hd : deleteVersionsOnStores rest with
        | ok v => simp [Except.map, hd, ih.symm, hr]
        | error e => simp [Except.map, hd, ← ih, hd, hr]
      | versionDoesNotExist =>
        simp only [hi, hr]
        cases hd : deleteVersionsOnStores rest with
        | ok v => simp [Except.map, hd, ih.symm, hr]
        | error e => simp [Except.map, hd, ← ih, hd, hr]
    · rw [if_neg hi]
      simp only [List.mem_cons]
      constructor
      · intro he
        exact (ih.mp he).imp (fun q hq => ⟨Or.inr hq.1, hq.2⟩)
      · rintro ⟨q, hq | hq, hq2⟩
        · rw [hq] at hq2
          exact absurd hq2.1 hi
        · exact ih.mpr ⟨q, hq, hq2⟩

theorem deleteVersionsOnStores_ok (l : List (String × PruneSubStore))
    (h : ∀ p ∈ l, ¬ (p.2.storeType = StoreType.iavl ∧
      p.2.deleteResult = DeleteVersionsResult.otherError)) :
    deleteVersionsOnStores l =
      Except.ok ((l.filter (fun p => decide (p.2.storeType = StoreType.iavl))).map Prod.fst) := by
  induction l with
  | nil => rfl
  | cons p rest ih =>
    obtain ⟨name, s⟩ := p
    have hrest := ih (fun q hq => h q (List.mem_cons_of_mem _ hq))
    simp only [deleteVersionsOnStores, List.filter]
    by_cases hi : s.storeType = StoreType.iavl
    · rw [if_pos hi]
      have hne : s.deleteResult ≠ DeleteVersionsResult.otherError := by
        intro hc
        exact h (name, s) (List.mem_cons_self _ _) ⟨hi, hc⟩
      cases hr : s.deleteResult with
      | otherError => exact absurd hr hne
      | ok => simp [hrest, Except.map, hi]
      | versionDoesNotExist => simp [hrest, Except.map, hi]
    · rw [if_neg hi]
      simp only [hrest]
      have : decide (s.storeType = StoreType.iavl) = false := by simp [hi]
      simp [this]

/-- A concrete pruning state used in the C5 counterexample and witness:
one iavl sub-store and one transient sub-store, both healthy. -/
def pruneStoresEx : List (String × PruneSubStore) :=
  [("a", { storeType := StoreType.iavl, deleteResult := DeleteVersionsResult.ok }),
   ("t", { storeType := StoreType.transient, deleteResult := DeleteVersionsResult.ok })]

/-- C5 counterexample: with caller-supplied heights but an empty internal
pending list, PruneStores returns immediately: DeleteVersions is invoked on
no store at all (calledStores is empty) and earliestVersion is untouched,
contradicting the claim that the iavl sub-store is still pruned in this
situation. -/
theorem pruneStores_drops_external_counterexample :
    pruneStores true [5] { stores := pruneStoresEx, pruneHeights := [], earliestVersion := 0 } =
      Except.ok
        { calledStores := [], heightsUsed := [],
          state := { stores := pruneStoresEx, pruneHeights := [], earliestVersion := 0 } } :=
  rfl

/-- C5 amended: PruneStores returns without calling DeleteVersions whenever
the internal pending list is empty, dropping any caller-supplied heights;
when the internal list is nonempty it calls DeleteVersions with the
combined heights list on every iavl sub-store, a VersionDoesNotExist result
is swallowed while any other DeleteVersions error is fatal, and on success
earliestVersion becomes the last element of the combined heights list and
the pending list is cleared when clearStorePruningHeights is set. -/
theorem pruneStores_behavior (clear : Bool) (caller : List Int) (st : PruneState) :
    (st.pruneHeights = [] →
      pruneStores clear caller st =
        Except.ok { calledStores := [], heightsUsed := [], state := st })
  ∧ (st.pruneHeights ≠ [] →
      (((∃ e, pruneStores clear caller st = Except.error e) ↔
          ∃ p ∈ st.stores, p.2.storeType = StoreType.iavl ∧
            p.2.deleteResult = DeleteVersionsResult.otherError)
        ∧ ((∀ p ∈ st.stores, ¬ (p.2.storeType = StoreType.iavl ∧
              p.2.deleteResult = DeleteVersionsResult.otherError)) →
            pruneStores clear caller st =
              Except.ok
                { calledStores :=
                    (st.stores.filter
                        (fun p => decide (p.2.storeType = StoreType.iavl))).map Prod.fst
                  heightsUsed := if clear then caller ++ st.pruneHeights else caller
                  state :=
                    { stores := st.stores
                      earliestVersion :=
                        match (if clear then caller ++ st.pruneHeights else caller).getLast? with
                        | some h => h
                        | none => st.earliestVersion
                      pruneHeights := if clear then [] else st.pruneHeights } }))) := by
  constructor
  · intro h0
    rw [pruneStores]
    simp [h0]
  · intro hne
    have hlen : ¬ st.pruneHeights.length = 0 := by
      simpa [List.length_eq_zero] using hne
    constructor
    · rw [pruneStores]
      simp only [if_neg hlen]
      cases hd : deleteVersionsOnStores st.stores with
      | ok v =>
        rw [← deleteVersionsOnStores_error_iff]
        simp [Except.map, hd]
      | error e =>
        rw [← deleteVersionsOnStores_error_iff]
        simp [Except.map, hd]
    · intro hok
      rw [pruneStores]
      simp only [if_neg hlen]
      rw [deleteVersionsOnStores_ok st.stores hok]
      rfl

/-- C5 witness: with pending heights [3, 4] and clearing enabled,
DeleteVersions is invoked exactly on the iavl store, earliestVersion
becomes 4 (the last combined height) and the pending list is cleared. -/
theorem pruneStores_behavior_witness :
    pruneStores true [] { stores := pruneStoresEx, pruneHeights := [3, 4], earliestVersion := 0 } =
      Except.ok
        { calledStores := ["a"], heightsUsed := [3, 4],
          state := { stores := pruneStoresEx, pruneHeights := [], earliestVersion := 4 } } := by
  have h := ((pruneStores_behavior true []
      { stores := pruneStoresEx, pruneHeights := [3, 4], earliestVersion := 0 }).2
      (by decide)).2 (by decide)
  simpa [pruneStoresEx] using h

/-- C6: in the proved-query tail of Store.Query (req.Prove set and the
subpath requiring a proof): a nil or empty ProofOps from the sub-store
fails with the proof-is-unexpectedly-empty invalid-request error; otherwise
the commit info used for aggregation is the cached lastCommitInfo exactly
when res.Height equals its version and is loaded from disk otherwise (a
missing record fails the query), and the multi-store aggregation ProofOp
for the store name is appended as the last element of the proof ops. -/
theorem query_proof_aggregation (firstPath : String) (res : SubQueryRes)
    (lastCI : CommitInfo) (disk : Int → Option CommitInfo) :
    ((res.proofOps = none ∨ res.proofOps = some []) →
      queryProveTail firstPath true true res lastCI disk =
        Except.error (QueryError.invalidRequest
          "proof is unexpectedly empty; ensure height has not been pruned"))
  ∧ (∀ ops, res.proofOps = some ops → ops ≠ [] →
      ((res.height = lastCI.version →
          queryProveTail firstPath true true res lastCI disk =
            Except.ok { res with proofOps := some (ops ++ [ProofOp.multi firstPath lastCI]) })
        ∧ (res.height ≠ lastCI.version →
            (∀ ci, disk res.height = some ci →
                queryProveTail firstPath true true res lastCI disk =
                  Except.ok { res with proofOps := some (ops ++ [ProofOp.multi firstPath ci]) })
          ∧ (disk res.height = none →
              queryProveTail firstPath true true res lastCI disk =
                Except.error (QueryError.commitInfoNotFound "no commit info found"))))) := by
  constructor
  · intro h
    rcases h with h | h
    · rw [queryProveTail]
      simp [h]
    · rw [queryProveTail]
      simp [h]
  · intro ops hops hne
    have hlen : ¬ ops.length = 0 := by simpa [List.length_eq_zero] using hne
    constructor
    · intro hh
      rw [queryProveTail]
      simp only [hops, hh]
      simp [hlen, Except.map]
    · intro hh
      constructor
      · intro ci hci
        rw [queryProveTail]
        simp only [hops]
        simp [hlen, hh, hci, Except.map]
      · intro hci
        rw [queryProveTail]
        simp only [hops]
        simp [hlen, hh, hci, Except.map]

/-- C6 witness: the three paths evaluated on concrete data; the aggregation
op for store a is appended last, built from the cached commit info at the
matching height and from the disk record otherwise. -/
theorem query_proof_aggregation_witness :
    queryProveTail "a" true true
        { height := 3, value := [], proofOps := some [] }
        { version := 3, storeInfos := [] } (fun _ => none) =
      Except.error (QueryError.invalidRequest
        "proof is unexpectedly empty; ensure height has not been pruned")
  ∧ queryProveTail "a" true true
        { height := 3, value := [], proofOps := some [ProofOp.sub [1]] }
        { version := 3, storeInfos := [] } (fun _ => none) =
      Except.ok
        { height := 3, value := [],
          proofOps := some [ProofOp.sub [1],
            ProofOp.multi "a" { version := 3, storeInfos := [] }] }
  ∧ queryProveTail "a" true true
        { height := 2, value := [], proofOps := some [ProofOp.sub [1]] }
        { version := 3, storeInfos := [] }
        (fun v => if v = 2 then some { version := 2, storeInfos := [] } else none) =
      Except.ok
        { height := 2, value := [],
          proofOps := some [ProofOp.sub [1],
            ProofOp.multi "a" { version := 2, storeInfos := [] }] } := by
  refine ⟨?_, ?_, ?_⟩
  · exact (query_proof_aggregation "a"
      { height := 3, value := [], proofOps := some [] }
      { version := 3, storeInfos := [] } (fun _ => none)).1 (Or.inr rfl)
  · exact ((query_proof_aggregation "a"
      { height := 3, value := [], proofOps := some [ProofOp.sub [1]] }
      { version := 3, storeInfos := [] } (fun _ => none)).2
      [ProofOp.sub [1]] rfl (by decide)).1 rfl
  · exact (((query_proof_aggregation "a"
      { height := 2, value := [], proofOps := some [ProofOp.sub [1]] }
      { version := 3, storeInfos := [] }
      (fun v => if v = 2 then some { version := 2, storeInfos := [] } else none)).2
      [ProofOp.sub [1]] rfl (by decide)).2 (by decide)).1
      { version := 2, storeInfos := [] } rfl

/-- C7: Store.Snapshot fails on its bound checks, emitting no record
(errors in this embedding carry no record stream at all), exactly when the
height is 0 or exceeds the latest committed version; for every height in
(0, latestVersion] the bound checks pass and the function proceeds to
collection and export. -/
theorem snapshot_bounds_check (height : Nat) (latest : Int)
    (stores : List (String × SnapStoreData)) :
    (height = 0 →
      snapshotRecords height latest stores = Except.error "cannot snapshot height 0")
  ∧ (height ≠ 0 → latest < (height : Int) →
      snapshotRecords height latest stores = Except.error "cannot snapshot future height")
  ∧ (height ≠ 0 → (height : Int) ≤ latest →
      snapshotRecords height latest stores =
        (collectSnapshotStores stores).map
          (fun l => (sortBy Prod.fst l).flatMap emitStore)) := by
  refine ⟨?_, ?_, ?_⟩
  · intro h0
    rw [snapshotRecords, if_pos h0]
  · intro h0 hf
    rw [snapshotRecords, if_neg h0, if_pos hf]
  · intro h0 hf
    rw [snapshotRecords, if_neg h0, if_neg (not_lt.mpr hf)]

/-- C7 witness: height 0 and height 5 over latest version 3 fail; height 2
over latest version 3 passes the bound checks and exports. -/
theorem snapshot_bounds_check_witness :
    snapshotRecords 0 3 [("a", SnapStoreData.iavlStore [])] =
        Except.error "cannot snapshot height 0"
  ∧ snapshotRecords 5 3 [("a", SnapStoreData.iavlStore [])] =
        Except.error "cannot snapshot future height"
  ∧ snapshotRecords 2 3 [("a", SnapStoreData.iavlStore [])] =
        Except.ok [SnapshotRecord.storeItem "a"] := by
  refine ⟨?_, ?_, ?_⟩
  · exact (snapshot_bounds_check 0 3 [("a", SnapStoreData.iavlStore [])]).1 rfl
  · exact (snapshot_bounds_check 5 3 [("a", SnapStoreData.iavlStore [])]).2.1
      (by decide) (by decide)
  · have h := (snapshot_bounds_check 2 3 [("a", SnapStoreData.iavlStore [])]).2.2
      (by decide) (by decide)
    simpa using h

theorem collectSnapshotStores_ok :
    ∀ (l : List (String × SnapStoreData)) (r : List (String × List SnapExportNode)),
      collectSnapshotStores l = Except.ok r → r = iavlStoresOf l := by
  intro l
  induction l with
  | nil =>
    intro r h
    simpa [collectSnapshotStores, iavlStoresOf] using h.symm
  | cons p rest ih =>
    intro r h
    obtain ⟨name, d⟩ := p
    cases d with
    | iavlStore nodes =>
      rw [collectSnapshotStores] at h
      cases hc : collectSnapshotStores rest with
      | ok v =>
        rw [hc] at h
        simp only [Except.map] at h
        have hr : r = (name, nodes) :: v := by
          cases h
          rfl
        rw [hr, ih v hc]
        simp [iavlStoresOf]
      | error e =>
        rw [hc] at h
        simp [Except.map] at h
    | transientStore =>
      rw [collectSnapshotStores] at h
      have := ih r h
      simp [iavlStoresOf, this]
    | memStore =>
      rw [collectSnapshotStores] at h
      have := ih r h
      simp [iavlStoresOf, this]
    | otherStore => simp [collectSnapshotStores] at h

theorem snapshotRecords_ok_shape (height : Nat) (latest : Int)
    (l : List (String × SnapStoreData)) (s : List SnapshotRecord)
    (h : snapshotRecords height latest l = Except.ok s) :
    s = (sortBy Prod.fst (iavlStoresOf l)).flatMap emitStore := by
  rw [snapshotRecords] at h
  by_cases h0 : height = 0
  · rw [if_pos h0] at h
    exact absurd h (by simp)
  · rw [if_neg h0] at h
    by_cases hf : latest < (height : Int)
    · rw [if_pos hf] at h
      exact absurd h (by simp)
    · rw [if_neg hf] at h
      cases hc : collectSnapshotStores l with
      | ok r =>
        rw [hc] at h
        simp only [Except.map] at h
        have hs : s = (sortBy Prod.fst r).flatMap emitStore := by
          cases h
          rfl
        rw [hs, collectSnapshotStores_ok l r hc]
      | error e =>
        rw [hc] at h
        simp [Except.map] at h

theorem map_fst_iavlStoresOf_sublist (l : List (String × SnapStoreData)) :
    ((iavlStoresOf l).map Prod.fst).Sublist (l.map Prod.fst) := by
  induction l with
  | nil => simp [iavlStoresOf]
  | cons p rest ih =>
    obtain ⟨name, d⟩ := p
    cases d with
    | iavlStore nodes =>
      simpa [iavlStoresOf] using ih.cons₂ name
    | transientStore => simpa [iavlStoresOf] using ih.cons name
    | memStore => simpa [iavlStoresOf] using ih.cons name
    | otherStore => simpa [iavlStoresOf] using ih.cons name

theorem snapshotStoreNames_flatMap (L : List (String × List SnapExportNode)) :
    snapshotStoreNames (L.flatMap emitStore) = L.map Prod.fst := by
  induction L with
  | nil => rfl
  | cons p rest ih =>
    obtain ⟨name, nodes⟩ := p
    simp only [List.flatMap_cons, snapshotStoreNames, List.filterMap_append] at *
    rw [ih]
    simp [emitStore, List.filterMap_cons, List.filterMap_map]

/-- C8: Snapshot is deterministic: two runs over the same committed state
at the same height see the same stores up to Go map iteration order, and
since the store names are distinct and the stream is produced from the
name-sorted store list, the two record streams are identical; the stream
itself is the concatenation, in lexical ascending name order, of one
StoreItem per exported store followed by its NodeItem records, so the
StoreItem names appear sorted. -/
theorem snapshot_deterministic_sorted (height : Nat) (latest : Int)
    (l1 l2 : List (String × SnapStoreData)) (s1 s2 : List SnapshotRecord)
    (hperm : List.Perm l1 l2) (hnodup : (l1.map Prod.fst).Nodup)
    (h1 : snapshotRecords height latest l1 = Except.ok s1)
    (h2 : snapshotRecords height latest l2 = Except.ok s2) :
    s1 = s2
  ∧ s1 = (sortBy Prod.fst (iavlStoresOf l1)).flatMap emitStore
  ∧ (snapshotStoreNames s1).Pairwise (fun a b => a ≤ b) := by
  have hs1 := snapshotRecords_ok_shape height latest l1 s1 h1
  have hs2 := snapshotRecords_ok_shape height latest l2 s2 h2
  have hpermIavl : List.Perm (iavlStoresOf l1) (iavlStoresOf l2) := hperm.filterMap _
  have hnodupIavl : ((iavlStoresOf l1).map Prod.fst).Nodup :=
    hnodup.sublist (map_fst_iavlStoresOf_sublist l1)
  have hsortEq : sortBy Prod.fst (iavlStoresOf l1) = sortBy Prod.fst (iavlStoresOf l2) :=
    sortBy_eq_of_perm Prod.fst _ _ hpermIavl hnodupIavl
  refine ⟨?_, hs1, ?_⟩
  · rw [hs1, hs2, hsortEq]
  · rw [hs1, snapshotStoreNames_flatMap, List.pairwise_map]
    exact pairwise_sortBy Prod.fst (iavlStoresOf l1)

/-- A concrete export node for the C8 witness. -/
def snapNodeEx : SnapExportNode := { key := [1], value := [2], height := 0, version := 1 }

/-- Two iteration orders of the same mounted store set for the C8 witness. -/
def snapL1Ex : List (String × SnapStoreData) :=
  [("a", SnapStoreData.iavlStore [snapNodeEx]), ("t", SnapStoreData.transientStore)]

/-- The other iteration order of the C8 witness store set. -/
def snapL2Ex : List (String × SnapStoreData) :=
  [("t", SnapStoreData.transientStore), ("a", SnapStoreData.iavlStore [snapNodeEx])]

/-- C8 witness: both iteration orders of the same two mounted stores yield
the same stream, which is the sorted store segment list. -/
theorem snapshot_deterministic_sorted_witness :
    [SnapshotRecord.storeItem "a", SnapshotRecord.nodeItem snapNodeEx] =
        (sortBy Prod.fst (iavlStoresOf snapL1Ex)).flatMap emitStore
  ∧ (snapshotStoreNames
        [SnapshotRecord.storeItem "a", SnapshotRecord.nodeItem snapNodeEx]).Pairwise
      (fun a b => a ≤ b) :=
  ⟨(snapshot_deterministic_sorted 1 1 snapL1Ex snapL2Ex
      [SnapshotRecord.storeItem "a", SnapshotRecord.nodeItem snapNodeEx]
      [SnapshotRecord.storeItem "a", SnapshotRecord.nodeItem snapNodeEx]
      (by decide) (by decide) rfl rfl).2.1,
    (snapshot_deterministic_sorted 1 1 snapL1Ex snapL2Ex
      [SnapshotRecord.storeItem "a", SnapshotRecord.nodeItem snapNodeEx]
      [SnapshotRecord.storeItem "a", SnapshotRecord.nodeItem snapNodeEx]
      (by decide) (by decide) rfl rfl).2.2⟩

/-- C9: Store.Restore fails when a node record arrives before any store
record, fails when a node's height exceeds max int8 (127), and otherwise
normalizes a nil node key to empty bytes and, for leaf nodes (height 0), a
nil value to empty bytes before adding the node to the open importer. -/
theorem restore_node_handling (isIAVL : String → Bool) (item : IAVLItem)
    (rest : List RestoreItem) (im : RestoreImporter) (done : List RestoreImporter) :
    restore isIAVL (RestoreItem.iavlItem item :: rest) =
        Except.error "received IAVL node item before store item"
  ∧ (127 < item.height →
      restoreLoop isIAVL (RestoreItem.iavlItem item :: rest) (some im) done =
        Except.error "node height cannot exceed 127")
  ∧ (item.height ≤ 127 →
      restoreLoop isIAVL (RestoreItem.iavlItem item :: rest) (some im) done =
        restoreLoop isIAVL rest
          (some { im with nodes := im.nodes ++
            [{ key := item.key.getD []
               value :=
                 if toInt8 item.height = 0 ∧ item.value = none then some []
                 else item.value
               height := toInt8 item.height
               version := item.version }] }) done) := by
  refine ⟨rfl, ?_, ?_⟩
  · intro h
    rw [restoreLoop, if_pos h]
  · intro h
    rw [restoreLoop, if_neg (not_lt.mpr h)]
    have hn : ∀ it : IAVLItem, normalizeImportNode it =
        { key := it.key.getD []
          value :=
            if toInt8 it.height = 0 ∧ it.value = none then some []
            else it.value
          height := toInt8 it.height
          version := it.version } := by
      intro it
      obtain ⟨k, v, ht, ver⟩ := it
      cases k <;> rfl
    rw [hn item]

/-- A leaf wire node with nil key and nil value, for the C9 witness. -/
def iavlItemLeafEx : IAVLItem := { key := none, value := none, height := 0, version := 9 }

/-- A wire node whose height exceeds max int8, for the C9 witness. -/
def iavlItemHighEx : IAVLItem := { key := some [1], value := none, height := 300, version := 9 }

/-- C9 witness: a node stream with no preceding store record fails, an
over-high node fails, and a leaf node with nil key and value is added with
both normalized to empty bytes. -/
theorem restore_node_handling_witness :
    restore (fun _ => true) [RestoreItem.iavlItem iavlItemLeafEx] =
        Except.error "received IAVL node item before store item"
  ∧ restoreLoop (fun _ => true) [RestoreItem.iavlItem iavlItemHighEx]
        (some { name := "s", nodes := [] }) [] =
      Except.error "node height cannot exceed 127"
  ∧ restoreLoop (fun _ => true) [RestoreItem.iavlItem iavlItemLeafEx]
        (some { name := "s", nodes := [] }) [] =
      Except.ok
        { committed :=
            [{ name := "s"
               nodes := [{ key := [], value := some [], height := 0, version := 9 }] }]
          next := none } := by
  refine ⟨?_, ?_, ?_⟩
  · exact (restore_node_handling (fun _ => true) iavlItemLeafEx []
      { name := "s", nodes := [] } []).1
  · exact (restore_node_handling (fun _ => true) iavlItemHighEx []
      { name := "s", nodes := [] } []).2.1 (by decide)
  · have h := (restore_node_handling (fun _ => true) iavlItemLeafEx []
      { name := "s", nodes := [] } []).2.2 (by decide)
    rw [h]
    rfl

theorem opsBuffer_cons (op : BranchOp) (ops : List BranchOp) (name : String) :
    opsBuffer (op :: ops) name = opsBuffer [op] name ++ opsBuffer ops name := by
  cases op with
  | set n k v =>
    by_cases h : n = name
    · simp [opsBuffer, h]
    · simp [opsBuffer, h]
  | del n k =>
    by_cases h : n = name
    · simp [opsBuffer, h]
    · simp [opsBuffer, h]

theorem applyBranchOp_shape (parent : ParentStores)
    (ws : String → List (Bytes × Option Bytes)) (op : BranchOp) :
    applyBranchOp
        { stores := parent.map (fun p => (p.1, { parent := p.2, writes := ws p.1 })) } op =
      { stores := parent.map
          (fun p => (p.1, { parent := p.2, writes := ws p.1 ++ opsBuffer [op] p.1 })) } := by
  cases op with
  | set n k v =>
    simp only [applyBranchOp, List.map_map]
    congr 1
    apply List.map_congr_left
    intro p _
    by_cases h : p.1 = n
    · simp [Function.comp, h, CacheKV.set, opsBuffer]
    · have h2 : ¬ n = p.1 := fun hc => h hc.symm
      simp [Function.comp, h, h2, opsBuffer]
  | del n k =>
    simp only [applyBranchOp, List.map_map]
    congr 1
    apply List.map_congr_left
    intro p _
    by_cases h : p.1 = n
    · simp [Function.comp, h, CacheKV.del, opsBuffer]
    · have h2 : ¬ n = p.1 := fun hc => h hc.symm
      simp [Function.comp, h, h2, opsBuffer]

theorem foldl_applyBranchOp (ops : List BranchOp) :
    ∀ (parent : ParentStores) (ws : String → List (Bytes × Option Bytes)),
      ops.foldl applyBranchOp
          { stores := parent.map (fun p => (p.1, { parent := p.2, writes := ws p.1 })) } =
        { stores := parent.map
            (fun p => (p.1, { parent := p.2, writes := ws p.1 ++ opsBuffer ops p.1 })) } := by
  induction ops with
  | nil =>
    intro parent ws
    simp [opsBuffer]
  | cons op ops ih =>
    intro parent ws
    rw [List.foldl_cons, applyBranchOp_shape parent ws op,
      ih parent (fun n => ws n ++ opsBuffer [op] n)]
    congr 1
    apply List.map_congr_left
    intro p _
    rw [opsBuffer_cons op ops p.1, List.append_assoc]

theorem runBranchOps_shape (parent : ParentStores) (ops : List BranchOp) :
    (runBranchOps parent ops).branch.stores =
      parent.map (fun p => (p.1, { parent := p.2, writes := opsBuffer ops p.1 })) := by
  have h := foldl_applyBranchOp ops parent (fun _ => [])
  rw [runBranchOps]
  simp only [cacheMultiStore] at *
  rw [h]
  simp

theorem writeBranch_runBranchOps (parent : ParentStores) (ops : List BranchOp) :
    writeBranch (runBranchOps parent ops) =
      parent.map (fun p =>
        (p.1, CacheKV.write { parent := p.2, writes := opsBuffer ops p.1 })) := by
  rw [writeBranch, runBranchOps_shape, List.map_map]
  rfl

/-- C10: for a branch created by CacheMultiStore over the parent stores, a
sequence of writes issued through the branch sub-stores leaves the parent
contents untouched (reads from the parent are unchanged), and after
Write() every buffered write has been applied to the parent sub-stores:
reading a mounted sub-store afterwards yields the last branch write
buffered for that key when one exists, and the original parent value
otherwise. -/
theorem cache_branch_write_isolation (parent : ParentStores) (ops : List BranchOp)
    (name : String) (k : Bytes) :
    (runBranchOps parent ops).parent = parent
  ∧ parentGet (runBranchOps parent ops).parent name k = parentGet parent name k
  ∧ parentGet (writeBranch (runBranchOps parent ops)) name k =
      (match parent.find? (fun p => decide (p.1 = name)) with
       | some p =>
         match bufferedWrite (opsBuffer ops name) k with
         | some v => v
         | none => p.2 k
       | none => none) := by
  refine ⟨rfl, rfl, ?_⟩
  rw [writeBranch_runBranchOps]
  induction parent with
  | nil => rfl
  | cons p rest ih =>
    by_cases h : p.1 = name
    · simp only [List.map_cons, parentGet, List.find?]
      simp [h, CacheKV.write]
    · simp only [List.map_cons, parentGet, List.find?] at *
      simp only [h, decide_eq_false_iff_not.mpr h] at *
      simpa using ih

end GalCosmos
